import Mathlib

/-!
# Verification of the incremental Kullback (periodic Index-of-Coincidence) engine

Shallow embedding of `src/lib.rs` (crate `kullback_rs`).

Modelling conventions:
* Rust `char` symbols are embedded as their code points, `Nat`.
* Rust `usize` arithmetic is `Nat` arithmetic; the one place where a
  wrapping subtraction can occur on the wasm32 target (`range - 1` in the
  cached fast path of `analyze`) is modelled by `wsub1`.
* Rust `f32` scores are idealized as exact rationals `ℚ`; `x / 0 = 0` in `ℚ`
  mirrors the fact that the corresponding IEEE comparisons with `NaN`/`±inf`
  are settled separately where they matter (spike detection).
* The canvas/rendering side effects of `plot` are external; its computational
  content (min/max/mean/stdev, the spike set, the `unwrap` panic on an empty
  curve) is kept.  A Rust panic is the explicit result `AResult.panic`.
* Decoding (UTF8/hex/base64) is the external Decoder boundary: the engine is
  modelled from the decoded symbol stream `data` plus the `is_bytes` flag
  that `analyze` derives during decoding.
-/

namespace Kullback

/-- Rust `usize::div_ceil`: `(a + b - 1) / b` in truncated `Nat` arithmetic. -/
def divCeil (a b : Nat) : Nat := (a + b - 1) / b

/-- Wrapping subtraction of `1` on a 32-bit `usize` (wasm32 target, release
profile): `0 - 1` wraps to `2 ^ 32 - 1`; positive values subtract normally.
Used by the cached fast path `cache.clone().into_iter().take(range-1)`. -/
def wsub1 (n : Nat) : Nat := if n = 0 then 2 ^ 32 - 1 else n - 1

/-- The chunk size (column height) `data.len().div_ceil(i)` used by
`analyze` and `transpose4` for period `p`. -/
def chunkSize (len p : Nat) : Nat := divCeil len p

/-- `let cap = if (data.len() % i) != 0 {data.len() % i} else {i}` from
`analyze`: the number of full-height (padding-free) columns. -/
def capOf (len p : Nat) : Nat := if len % p ≠ 0 then len % p else p

/-- Length of the trimmed column `j` actually fed to the IoC computation:
`chunk_size - ((j >= cap) as usize)` from `analyze`. -/
def colLen (len p j : Nat) : Nat := chunkSize len p - (if capOf len p ≤ j then 1 else 0)

/-- `fast_ioc` from `src/lib.rs`: dense counting with a 256-entry array
(`counts[*x as usize] += 1` -- precondition: every code is `< 256`), then
`counts.into_iter().filter_map(|x| (x!=0).then(|| x*(x-1))).sum::<usize>()
 as f32 / (l*(l-1.0))`.  The array traversal is the sum over indices
`0..256` in order; the zero-count filter is the `if`. -/
def fast_ioc (data : List Nat) : ℚ :=
  let l : ℚ := (data.length : ℚ)
  ((((List.range 256).map fun x =>
      if data.count x ≠ 0 then data.count x * (data.count x - 1) else 0).sum : ℕ) : ℚ)
    / (l * (l - 1))

/-- `slow_ioc` from `src/lib.rs`: a `HashMap` keyed by symbol holds the
occurrence count of each distinct symbol; `counts.into_values()` visits each
distinct symbol of `data` exactly once (modelled by `data.dedup`, the sum
being commutative the iteration order is irrelevant), and the map value for
`x` is `data.count x`. -/
def slow_ioc (data : List Nat) : ℚ :=
  let l : ℚ := (data.length : ℚ)
  (((data.dedup.map fun x => data.count x * (data.count x - 1)).sum : ℕ) : ℚ)
    / (l * (l - 1))

/-- The strategy dispatch `if is_bytes {fast_ioc(fixed)} else {slow_ioc(fixed)}`
from `analyze`. -/
def iocOf (is_bytes : Bool) (data : List Nat) : ℚ :=
  if is_bytes then fast_ioc data else slow_ioc data

/-- `transpose4` from `src/lib.rs`:
`for (i, d) in data.iter().enumerate() { output[((i*chunk_size)%(chunk_size*n))+(i/n)] = *d }`
with `chunk_size = data.len().div_ceil(n)`.  The in-place mutation of the
output buffer is the left fold of `List.set` over the write sequence. -/
def transpose4 (data output : List Nat) (n : Nat) : List Nat :=
  (List.range data.length).foldl
    (fun out i =>
      out.set (i * divCeil data.length n % (divCeil data.length n * n) + i / n) (data.getD i 0))
    output

/-- The trimmed column slice read back by `analyze` for period `p`, column `j`:
`transpositions[..t_len].chunks_exact(chunk_size)` yields chunk `j` as the
sub-slice at offset `j*chunk_size` of length `chunk_size`, and
`&x[..chunk_size-((j >= cap) as usize)]` trims the final padding slot of a
short column. -/
def colSlice (buf : List Nat) (len p j : Nat) : List Nat :=
  (((buf.take (chunkSize len p * p)).drop (j * chunkSize len p)).take (chunkSize len p)).take
    (colLen len p j)

/-- The mathematical content of column `j` for period `p`: the symbols of the
stream at indices `j, j+p, j+2p, ...` (exactly `colLen` of them). -/
def colData (data : List Nat) (p j : Nat) : List Nat :=
  (List.range (colLen data.length p j)).map fun k => data.getD (k * p + j) 0

/-- One iteration of the scanning loop of `analyze` for period `p`: transpose
into the shared buffer, sum the trimmed per-column IoC scores, divide by the
number of columns (`sum / i as f32`). -/
def periodScoreBuf (is_bytes : Bool) (data buf : List Nat) (p : Nat) : ℚ :=
  (((List.range p).map fun j =>
      iocOf is_bytes (colSlice (transpose4 data buf p) data.length p j)).sum) / (p : ℚ)

/-- The buffer-independent value of the per-period average IoC score. -/
def periodScore (is_bytes : Bool) (data : List Nat) (p : Nat) : ℚ :=
  (((List.range p).map fun j => iocOf is_bytes (colData data p j)).sum) / (p : ℚ)

/-- The loop `for i in (cache.len()+1)..range` of `analyze`, with the shared
transposition buffer threaded through the iterations (its contents persist
from one period to the next, exactly as the Rust buffer does).  `fuel` is the
number of remaining iterations, fixed at loop entry. -/
def scanGo (is_bytes : Bool) (data : List Nat) : Nat → Nat → List ℚ → List Nat → List ℚ
  | 0, _, cache, _ => cache
  | fuel + 1, i, cache, buf =>
      scanGo is_bytes data fuel (i + 1) (cache ++ [periodScoreBuf is_bytes data buf i])
        (transpose4 data buf i)

/-- The cache extension performed by `analyze`'s scanning loop: iterate from
`i = cache.len()+1` while `i < range`, over the freshly allocated buffer
`vec!['\u{0}'; data.len()+range]`. -/
def extendCache (is_bytes : Bool) (data : List Nat) (range : Nat) (cache : List ℚ) : List ℚ :=
  scanGo is_bytes data (range - (cache.length + 1)) (cache.length + 1) cache
    (List.replicate (data.length + range) 0)

/-- The Period Scanner portion of `analyze` (src/lib.rs lines 33-90, without
the rendering calls): cached fast path, the two validation checks with the
verbatim error strings, then the incremental extension loop.
(`cache.reserve` only affects capacity and has no observable semantics.) -/
def scanM (is_bytes : Bool) (data : List Nat) (range : Nat) (cache : List ℚ) :
    Except String (List ℚ) :=
  if range ≤ cache.length then .ok cache
  else if data.length < 4 then .error "Length of input is too short (4 chars minimum)"
  else if data.length / 2 < range then .error "Range is too large. Please decrease."
  else .ok (extendCache is_bytes data range cache)

/-- `mean` from `plot`: `iocs.iter().sum::<f32>() / iocs.len() as f32`. -/
def mean (iocs : List ℚ) : ℚ := iocs.sum / (iocs.length : ℚ)

/-- The population variance from `plot` (the radicand of `stdev`):
`iocs.iter().map(|x| (mean-x).powi(2)).sum::<f32>() / iocs.len() as f32`. -/
def variance (iocs : List ℚ) : ℚ :=
  ((iocs.map fun x => (mean iocs - x) ^ 2).sum) / (iocs.length : ℚ)

/-- The spike test `(x-mean)/stdev > 1.5` of `plot`, with
`stdev = variance.sqrt()`: over exact arithmetic this comparison holds iff
`mean < x` and `(x-mean)^2 > 1.5^2 * variance`, which is also exactly the
IEEE outcome when `stdev == 0` (`(x-mean)/0.0` is `+inf > 1.5` iff `x > mean`,
and `NaN` compares false when `x == mean`). -/
def spikeTest (m v x : ℚ) : Bool :=
  decide (m < x ∧ (3 / 2) ^ 2 * v < (x - m) ^ 2)

/-- The spike set of `plot`:
`iocs.iter().enumerate().filter_map(|(i, x)| ((x-mean)/stdev > 1.5).then(|| i))`. -/
def spikeIndices (iocs : List ℚ) : List Nat :=
  (List.range iocs.length).filter fun i =>
    spikeTest (mean iocs) (variance iocs) (iocs.getD i 0)

/-- Observable outcome of a call to `analyze`: the returned cache together
with the score curve handed to the renderer and the spike indices marked on
it, a `JsValue` error, or a Rust panic. -/
inductive AResult where
  | ok (ret plotted : List ℚ) (spikes : List Nat)
  | err (msg : String)
  | panic
  deriving DecidableEq

/-- Computational content of `plot`: panics on an empty curve
(`iocs.iter().min_by(..).unwrap()` on an empty iterator), otherwise renders
`iocs` with its spike markers and returns `Ok(iocs)`.  `ret` is the value the
surrounding `analyze` call returns (the full cache on the fast path). -/
def plotRes (iocs ret : List ℚ) : AResult :=
  if iocs.isEmpty then .panic else .ok ret iocs (spikeIndices iocs)

/-- `analyze` from `src/lib.rs`, from the decoded symbol stream onward:
on the cached fast path it plots `cache.take(range-1)` (with `range-1` the
wasm32 wrapping subtraction) but returns the full `cache`; otherwise it
validates, extends the cache, and plots/returns the extended cache. -/
def analyze (is_bytes : Bool) (data : List Nat) (range : Nat) (cache : List ℚ) : AResult :=
  match scanM is_bytes data range cache with
  | .error e => .err e
  | .ok c =>
      if range ≤ cache.length then plotRes (cache.take (wsub1 range)) cache
      else plotRes c c

/-- The cache returned to the caller, when the call returned at all. -/
def retOf : AResult → Option (List ℚ)
  | .ok ret _ _ => some ret
  | _ => none

/-! ## Arithmetic facts about the chunk geometry -/

theorem capOf_le (len p : Nat) (hp : 0 < p) : capOf len p ≤ p := by
  have hr : len % p < p := Nat.mod_lt _ hp
  unfold capOf; split <;> omega

theorem capOf_pos (len p : Nat) (hp : 0 < p) : 0 < capOf len p := by
  unfold capOf; split <;> omega

/-- Master geometry fact: `p` columns of height `chunk` cover the stream plus
exactly `p - cap` padding slots. -/
theorem len_eq_chunk (len p : Nat) (hp : 0 < p) :
    len + (p - capOf len p) = chunkSize len p * p := by
  rcases Nat.eq_zero_or_pos len with h0 | hlen
  · subst h0
    have h1 : (p - 1) / p = 0 := Nat.div_eq_of_lt (Nat.sub_lt hp Nat.one_pos)
    simp [chunkSize, divCeil, capOf, h1]
  · have hqr := Nat.div_add_mod len p
    have hr : len % p < p := Nat.mod_lt _ hp
    unfold chunkSize divCeil capOf
    by_cases h : len % p = 0
    · rw [if_neg (by simp [h])]
      have h2 : len + p - 1 = p * (len / p) + (p - 1) := by omega
      rw [h2, Nat.mul_add_div hp, Nat.div_eq_of_lt (Nat.sub_lt hp Nat.one_pos)]
      have h3 : (len / p + 0) * p = p * (len / p) := by ring
      omega
    · rw [if_pos (by simp [h])]
      have hx : p * (len / p + 1) = p * (len / p) + p := by ring
      have h2 : len + p - 1 = p * (len / p + 1) + (len % p - 1) := by omega
      rw [h2, Nat.mul_add_div hp, Nat.div_eq_of_lt (by omega : len % p - 1 < p)]
      have h3 : (len / p + 1 + 0) * p = p * (len / p) + p := by ring
      omega

theorem chunkSize_mul_le (len p : Nat) (hp : 0 < p) :
    chunkSize len p * p ≤ len + p - 1 := by
  have h := len_eq_chunk len p hp
  have h2 := capOf_pos len p hp
  omega

theorem div_lt_chunkSize {len p i : Nat} (hp : 0 < p) (hi : i < len) :
    i / p < chunkSize len p := by
  have h := len_eq_chunk len p hp
  have h2 : i / p * p ≤ i := Nat.div_mul_le_self i p
  by_contra hc
  push_neg at hc
  have h3 : chunkSize len p * p ≤ i / p * p := Nat.mul_le_mul_right _ hc
  omega

theorem colLen_of_lt {len p j : Nat} (h : j < capOf len p) :
    colLen len p j = chunkSize len p := by
  simp [colLen, Nat.not_le.mpr h]

theorem colLen_of_ge {len p j : Nat} (h : capOf len p ≤ j) :
    colLen len p j = chunkSize len p - 1 := by
  simp [colLen, h]

theorem colLen_le (len p j : Nat) : colLen len p j ≤ chunkSize len p := by
  unfold colLen; omega

/-- Index `k` of trimmed column `j` addresses a genuine stream position. -/
theorem col_index_lt {len p j k : Nat} (hp : 0 < p) (hj : j < p)
    (hk : k < colLen len p j) : k * p + j < len := by
  have hc := len_eq_chunk len p hp
  have hcap := capOf_le len p hp
  have hcappos := capOf_pos len p hp
  by_cases hcj : capOf len p ≤ j
  · rw [colLen_of_ge hcj] at hk
    have h1 : (k + 2) * p ≤ chunkSize len p * p :=
      Nat.mul_le_mul_right _ (by omega)
    have h2 : (k + 2) * p = k * p + (p + p) := by ring
    omega
  · rw [colLen_of_lt (Nat.not_le.mp hcj)] at hk
    have h1 : (k + 1) * p ≤ chunkSize len p * p :=
      Nat.mul_le_mul_right _ (by omega)
    have h2 : (k + 1) * p = k * p + p := by ring
    omega

/-- The trimmed column lengths sum to the stream length exactly. -/
theorem sum_colLen (len p : Nat) (hp : 0 < p) :
    (((List.range p).map fun j => colLen len p j).sum) = len := by
  have hc := len_eq_chunk len p hp
  have hcap := capOf_le len p hp
  have hcappos := capOf_pos len p hp
  have hsplit : List.range' 0 (capOf len p) ++
      List.range' (capOf len p) (p - capOf len p) = List.range p := by
    rw [List.range_eq_range']
    have h := List.range'_append_1 0 (capOf len p) (p - capOf len p)
    rw [Nat.zero_add, Nat.sub_add_cancel hcap] at h
    exact h
  rw [← hsplit, List.map_append, List.sum_append]
  have h1 : ((List.range' 0 (capOf len p)).map fun j => colLen len p j) =
      List.replicate (capOf len p) (chunkSize len p) := by
    apply List.eq_replicate_iff.mpr
    refine ⟨by simp, ?_⟩
    intro b hb
    obtain ⟨j, hj, rfl⟩ := List.mem_map.mp hb
    obtain ⟨i, hi, rfl⟩ := List.mem_range'.mp hj
    exact colLen_of_lt (by omega)
  have h2 : ((List.range' (capOf len p) (p - capOf len p)).map fun j => colLen len p j) =
      List.replicate (p - capOf len p) (chunkSize len p - 1) := by
    apply List.eq_replicate_iff.mpr
    refine ⟨by simp, ?_⟩
    intro b hb
    obtain ⟨j, hj, rfl⟩ := List.mem_map.mp hb
    obtain ⟨i, hi, rfl⟩ := List.mem_range'.mp hj
    exact colLen_of_ge (by omega)
  rw [h1, h2, List.sum_replicate, List.sum_replicate, smul_eq_mul, smul_eq_mul]
  rcases Nat.eq_zero_or_pos (chunkSize len p) with hch | hch
  · rw [hch] at hc ⊢
    simp only [Nat.zero_mul, Nat.mul_zero, Nat.zero_sub] at hc ⊢
    omega
  · obtain ⟨d, hd⟩ : ∃ d, chunkSize len p = d + 1 :=
      ⟨chunkSize len p - 1, by omega⟩
    rw [hd] at hc ⊢
    have e1 : (d + 1) * p = d * p + p := by ring
    have e2 : capOf len p * (d + 1) = d * capOf len p + capOf len p := by ring
    have e3 : (p - capOf len p) * (d + 1 - 1) = d * (p - capOf len p) := by
      simp only [Nat.add_sub_cancel]; ring
    have e4 : d * capOf len p + d * (p - capOf len p) = d * p := by
      rw [← Nat.mul_add, Nat.add_sub_cancel' hcap]
    omega

/-! ## Pointwise characterization of `transpose4` -/

theorem foldl_set_length (g v : Nat → Nat) (l : List Nat) (buf : List Nat) :
    (l.foldl (fun out i => out.set (g i) (v i)) buf).length = buf.length := by
  induction l generalizing buf with
  | nil => rfl
  | cons a t ih => simp only [List.foldl_cons]; rw [ih]; exact List.length_set ..

theorem foldl_set_notmem (g v : Nat → Nat) (l : List Nat) (buf : List Nat) (s : Nat)
    (h : ∀ i ∈ l, g i ≠ s) :
    (l.foldl (fun out i => out.set (g i) (v i)) buf)[s]? = buf[s]? := by
  induction l generalizing buf with
  | nil => rfl
  | cons a t ih =>
      simp only [List.foldl_cons]
      rw [ih _ fun i hi => h i (List.mem_cons_of_mem _ hi)]
      exact List.getElem?_set_ne (h a (List.mem_cons_self a t))

theorem foldl_set_mem (g v : Nat → Nat) (l : List Nat) (buf : List Nat) (m : Nat)
    (hmem : m ∈ l) (hinj : l.Pairwise fun a b => g a ≠ g b) (hlen : g m < buf.length) :
    (l.foldl (fun out i => out.set (g i) (v i)) buf)[g m]? = some (v m) := by
  induction l generalizing buf with
  | nil => cases hmem
  | cons a t ih =>
      rw [List.pairwise_cons] at hinj
      simp only [List.foldl_cons]
      rcases List.mem_cons.mp hmem with rfl | hmt
      · rw [foldl_set_notmem _ _ _ _ _ fun i hi => (hinj.1 i hi).symm]
        exact List.getElem?_set_self hlen

      · exact ih _ hmt hinj.2 (by rw [List.length_set]; exact hlen)

/-- The write index used by `transpose4` for source position `i`, simplified:
`(i*chunk) % (chunk*p) = (i % p) * chunk`. -/
theorem transpose_index_eq (len p i : Nat) :
    i * chunkSize len p % (chunkSize len p * p) + i / p =
      i % p * chunkSize len p + i / p := by
  have h : i * chunkSize len p % (chunkSize len p * p) = i % p * chunkSize len p := by
    rw [Nat.mul_comm (chunkSize len p) p]
    exact Nat.mul_mod_mul_right (chunkSize len p) i p
  rw [h]

theorem transpose_index_inj {len p : Nat} (hp : 0 < p) {i1 i2 : Nat}
    (h1 : i1 < len) (h2 : i2 < len)
    (heq : i1 % p * chunkSize len p + i1 / p = i2 % p * chunkSize len p + i2 / p) :
    i1 = i2 := by
  have d1 : i1 / p < chunkSize len p := div_lt_chunkSize hp h1
  have d2 : i2 / p < chunkSize len p := div_lt_chunkSize hp h2
  have hchpos : 0 < chunkSize len p := Nat.lt_of_le_of_lt (Nat.zero_le _) d1
  have e1 : (i1 % p * chunkSize len p + i1 / p) / chunkSize len p = i1 % p := by
    rw [Nat.mul_comm, Nat.mul_add_div hchpos, Nat.div_eq_of_lt d1, Nat.add_zero]
  have e2 : (i2 % p * chunkSize len p + i2 / p) / chunkSize len p = i2 % p := by
    rw [Nat.mul_comm, Nat.mul_add_div hchpos, Nat.div_eq_of_lt d2, Nat.add_zero]

  have hmod : i1 % p = i2 % p := by rw [← e1, ← e2, heq]
  have hdiv : i1 / p = i2 / p := by
    have := heq
    rw [hmod] at this
    omega
  have q1 := Nat.div_add_mod i1 p
  have q2 := Nat.div_add_mod i2 p
  rw [hmod, hdiv] at q1
  omega

/-- `transpose4` preserves the buffer length. -/
theorem transpose4_length (data buf : List Nat) (p : Nat) :
    (transpose4 data buf p).length = buf.length :=
  foldl_set_length _ _ _ _

/-- Pointwise result of `transpose4`: the symbol at stream position `i` lands
at buffer offset `(i % p) * chunk + i / p`. -/
theorem transpose4_getElem (data buf : List Nat) (p : Nat) (hp : 0 < p) (i : Nat)
    (hi : i < data.length)
    (hbuf : i % p * chunkSize data.length p + i / p < buf.length) :
    (transpose4 data buf p)[i % p * chunkSize data.length p + i / p]? =
      some (data.getD i 0) := by
  unfold transpose4
  have hfun : (fun (out : List Nat) (j : Nat) =>
      out.set (j * divCeil data.length p % (divCeil data.length p * p) + j / p)
        (data.getD j 0)) =
      fun out j => out.set (j % p * chunkSize data.length p + j / p) (data.getD j 0) := by
    funext out j
    rw [show (divCeil data.length p) = chunkSize data.length p from rfl,
      transpose_index_eq]
  rw [hfun]
  exact foldl_set_mem (fun j => j % p * chunkSize data.length p + j / p)
    (fun j => data.getD j 0) (List.range data.length) buf i
    (List.mem_range.mpr hi)
    ((List.pairwise_lt_range _).imp_of_mem fun ha hb hlt => by
      intro heq
      exact absurd (transpose_index_inj hp (List.mem_range.mp ha)
        (List.mem_range.mp hb) heq) (Nat.ne_of_lt hlt))
    hbuf

/-! ## Column extraction: the slices read back by `analyze` carry exactly the
interleaved stream symbols, independently of the buffer's previous contents -/

theorem colData_getElem (data : List Nat) (p j k : Nat) :
    (colData data p j)[k]? =
      if k < colLen data.length p j then some (data.getD (k * p + j) 0) else none := by
  unfold colData
  by_cases hk : k < colLen data.length p j
  · rw [if_pos hk, List.getElem?_map, List.getElem?_range hk]
    rfl
  · rw [if_neg hk]
    apply List.getElem?_eq_none
    simpa using Nat.not_lt.mp hk

theorem colSlice_length (buf : List Nat) (len p j : Nat) (hp : 0 < p) (hj : j < p)
    (hbuf : chunkSize len p * p ≤ buf.length) :
    (colSlice buf len p j).length = colLen len p j := by
  have hsub : chunkSize len p * p - j * chunkSize len p =
      (p - j) * chunkSize len p := by
    rw [Nat.sub_mul, Nat.mul_comm p (chunkSize len p)]
  have hge : chunkSize len p ≤ (p - j) * chunkSize len p := by
    have := Nat.mul_le_mul_right (chunkSize len p) (by omega : 1 ≤ p - j)
    simpa using this
  have hc := colLen_le len p j
  simp only [colSlice, List.length_take, List.length_drop]
  omega

theorem colSlice_transpose4 (data buf : List Nat) (p j : Nat) (hp : 0 < p)
    (hj : j < p) (hbuf : chunkSize data.length p * p ≤ buf.length) :
    colSlice (transpose4 data buf p) data.length p j = colData data p j := by
  have hlen : (transpose4 data buf p).length = buf.length := transpose4_length data buf p
  apply List.ext_getElem?
  intro k
  rw [colData_getElem]
  by_cases hk : k < colLen data.length p j
  · have hkc : k < chunkSize data.length p :=
      Nat.lt_of_lt_of_le hk (colLen_le data.length p j)
    have hcpos : 0 < chunkSize data.length p := Nat.lt_of_le_of_lt (Nat.zero_le _) hkc
    have hidx : j * chunkSize data.length p + k < chunkSize data.length p * p := by
      have h1 : (j + 1) * chunkSize data.length p ≤ p * chunkSize data.length p :=
        Nat.mul_le_mul_right _ (by omega)
      have h2 : (j + 1) * chunkSize data.length p =
          j * chunkSize data.length p + chunkSize data.length p := by ring
      have h3 : p * chunkSize data.length p = chunkSize data.length p * p := by ring
      omega
    rw [if_pos hk]
    unfold colSlice
    rw [List.getElem?_take_of_lt hk, List.getElem?_take_of_lt hkc,
      List.getElem?_drop, List.getElem?_take_of_lt hidx]
    have hi : k * p + j < data.length := col_index_lt hp hj hk
    have hmod : (k * p + j) % p = j := by
      rw [Nat.mul_comm k p, Nat.mul_add_mod, Nat.mod_eq_of_lt hj]
    have hdiv : (k * p + j) / p = k := by
      rw [Nat.mul_comm k p, Nat.mul_add_div hp, Nat.div_eq_of_lt hj, Nat.add_zero]
    have := transpose4_getElem data buf p hp (k * p + j) hi
      (by rw [hmod, hdiv]; omega)
    rw [hmod, hdiv] at this
    exact this
  · rw [if_neg hk]
    apply List.getElem?_eq_none
    rw [colSlice_length _ _ _ _ hp hj (by omega)]
    omega

/-! ## The scanning loop computes the buffer-independent period scores -/

theorem periodScoreBuf_eq (ib : Bool) (data buf : List Nat) (p : Nat) (hp : 0 < p)
    (hbuf : chunkSize data.length p * p ≤ buf.length) :
    periodScoreBuf ib data buf p = periodScore ib data p := by
  unfold periodScoreBuf periodScore
  have h : ((List.range p).map fun j =>
      iocOf ib (colSlice (transpose4 data buf p) data.length p j)) =
      (List.range p).map fun j => iocOf ib (colData data p j) := by
    apply List.map_congr_left
    intro j hj
    rw [colSlice_transpose4 data buf p j hp (List.mem_range.mp hj) hbuf]
  rw [h]

theorem scanGo_eq (ib : Bool) (data : List Nat) :
    ∀ (fuel i : Nat) (cache : List ℚ) (buf : List Nat), 0 < i →
      data.length + i + fuel ≤ buf.length + 2 →
      scanGo ib data fuel i cache buf =
        cache ++ (List.range' i fuel).map (periodScore ib data) := by
  intro fuel
  induction fuel with
  | zero => intro i cache buf _ _; simp [scanGo]
  | succ f ih =>
      intro i cache buf hi hlen
      rw [scanGo]
      rw [ih (i + 1) _ _ (by omega) (by rw [transpose4_length]; omega)]
      rw [periodScoreBuf_eq ib data buf i hi
        (Nat.le_trans (chunkSize_mul_le data.length i hi) (by omega))]
      rw [List.range'_succ]
      simp [List.append_assoc]

theorem extendCache_eq (ib : Bool) (data : List Nat) (range : Nat) (cache : List ℚ) :
    extendCache ib data range cache =
      cache ++ (List.range' (cache.length + 1) (range - (cache.length + 1))).map
        (periodScore ib data) := by
  unfold extendCache
  rcases Nat.eq_zero_or_pos (range - (cache.length + 1)) with h | h
  · rw [h]; simp [scanGo]
  · rw [scanGo_eq ib data _ _ _ _ (by omega)
      (by rw [List.length_replicate]; omega)]

theorem extendCache_length (ib : Bool) (data : List Nat) (range : Nat) (cache : List ℚ) :
    (extendCache ib data range cache).length =
      cache.length + (range - (cache.length + 1)) := by
  rw [extendCache_eq]
  simp

/-! ## The trimmed columns partition the stream -/

theorem join_map_singleton {α β : Type} (l : List β) (g : β → α) :
    ((l.map fun j => [g j]).flatten) = l.map g := by
  induction l with
  | nil => rfl
  | cons a t ih => simp [ih]

theorem join_cons_perm {α β : Type} (js : List β) (hd : β → α) (tl : β → List α) :
    ((js.map fun j => hd j :: tl j).flatten).Perm (js.map hd ++ (js.map tl).flatten) := by
  induction js with
  | nil => simp
  | cons a t ih =>
      simp only [List.map_cons, List.flatten_cons, List.cons_append]
      refine List.Perm.cons _ (List.Perm.trans (List.Perm.append_left _ ih) ?_)
      exact List.perm_append_comm_assoc _ _ _

theorem colData_peel (data : List Nat) (p j : Nat) (hp : 0 < p) (hj : j < p)
    (hlen : p ≤ data.length) :
    colData data p j = data.getD j 0 :: colData (data.drop p) p j := by
  have hmod : (data.length - p) % p = data.length % p := by
    conv_rhs => rw [show data.length = data.length - p + p by omega]
    rw [Nat.add_mod_right]
  have hcap : capOf (data.length - p) p = capOf data.length p := by
    unfold capOf; rw [hmod]
  have hchunk : chunkSize data.length p = chunkSize (data.length - p) p + 1 := by
    unfold chunkSize divCeil
    rw [show data.length + p - 1 = (data.length - p + p - 1) + p by omega,
      Nat.add_div_right _ hp]
  have hcol : colLen data.length p j = colLen (data.length - p) p j + 1 := by
    unfold colLen
    rw [hchunk, hcap]
    by_cases h : capOf data.length p ≤ j
    · rw [if_pos h]
      have hlp : p < data.length := by
        by_contra hc
        push_neg at hc
        have hlp2 : data.length = p := le_antisymm hc hlen
        have hcp : capOf data.length p = p := by
          unfold capOf
          rw [hlp2, Nat.mod_self]
          simp
        omega
      have hchpos : 0 < chunkSize (data.length - p) p := by
        simpa using div_lt_chunkSize hp (by omega : 0 < data.length - p)
      omega
    · rw [if_neg h]
      omega
  unfold colData
  rw [List.length_drop, hcol, List.range_succ_eq_map, List.map_cons]
  simp only [Nat.zero_mul, Nat.zero_add]
  congr 1
  rw [List.map_map]
  apply List.map_congr_left
  intro k _
  simp only [Function.comp]
  rw [List.getD_eq_getElem?_getD, List.getD_eq_getElem?_getD, List.getElem?_drop]
  have hidx : Nat.succ k * p + j = p + (k * p + j) := by
    simp only [Nat.succ_eq_add_one]
    ring
  rw [hidx]

theorem join_colData_base (data : List Nat) (p : Nat) (hp : 0 < p)
    (hlen : data.length < p) :
    ((List.range p).map (colData data p)).flatten = data := by
  rcases Nat.eq_zero_or_pos data.length with h0 | hpos
  · have hdata : data = [] := List.length_eq_zero.mp h0
    subst hdata
    have hcol : ∀ j, colData ([] : List Nat) p j = [] := by
      intro j
      unfold colData colLen chunkSize divCeil capOf
      simp [Nat.div_eq_of_lt (Nat.sub_lt hp Nat.one_pos)]
    have : (List.range p).map (colData ([] : List Nat) p) =
        List.replicate p [] := by
      apply List.eq_replicate_iff.mpr
      refine ⟨by simp, ?_⟩
      intro b hb
      obtain ⟨j, _, rfl⟩ := List.mem_map.mp hb
      exact hcol j
    rw [this]
    simp
  · have hchunk : chunkSize data.length p = 1 := by
      unfold chunkSize divCeil
      exact Nat.div_eq_of_lt_le (by omega) (by omega)
    have hcap : capOf data.length p = data.length := by
      unfold capOf
      rw [Nat.mod_eq_of_lt hlen, if_pos (by omega)]
    have hcol : ∀ j, colData data p j =
        if j < data.length then [data.getD j 0] else [] := by
      intro j
      unfold colData
      by_cases hj : j < data.length
      · rw [if_pos hj, colLen_of_lt (by omega : j < capOf data.length p), hchunk]
        rw [show List.range 1 = [0] from rfl]
        simp
      · rw [if_neg hj, colLen_of_ge (by omega : capOf data.length p ≤ j), hchunk]
        simp
    have hsplit : List.range' 0 data.length ++
        List.range' data.length (p - data.length) = List.range p := by
      rw [List.range_eq_range']
      have h := List.range'_append_1 0 data.length (p - data.length)
      rw [Nat.zero_add, Nat.sub_add_cancel (by omega)] at h
      exact h
    rw [← hsplit, List.map_append, List.flatten_append]
    have h1 : (List.range' 0 data.length).map (colData data p) =
        (List.range' 0 data.length).map fun j => [data.getD j 0] := by
      apply List.map_congr_left
      intro j hj
      obtain ⟨i, hi, rfl⟩ := List.mem_range'.mp hj
      rw [hcol]
      rw [if_pos (by omega)]
    have h2 : (List.range' data.length (p - data.length)).map (colData data p) =
        List.replicate (p - data.length) [] := by
      apply List.eq_replicate_iff.mpr
      refine ⟨by simp, ?_⟩
      intro b hb
      obtain ⟨j, hj, rfl⟩ := List.mem_map.mp hb
      obtain ⟨i, hi, rfl⟩ := List.mem_range'.mp hj
      rw [hcol]
      rw [if_neg (by omega)]
    rw [h1, h2, join_map_singleton, List.flatten_replicate_nil, List.append_nil]
    rw [← List.range_eq_range']
    apply List.ext_getElem?
    intro k
    by_cases hk : k < data.length
    · rw [List.getElem?_map, List.getElem?_range hk, List.getElem?_eq_getElem hk]
      simp [List.getD_eq_getElem?_getD, List.getElem?_eq_getElem hk]
    · rw [List.getElem?_eq_none (by simpa using Nat.not_lt.mp hk),
        List.getElem?_eq_none (by omega : data.length ≤ k)]

/-- The trimmed columns for period `p` are, taken together, a permutation of
the stream: no symbol is double-counted or dropped. -/
theorem join_colData_perm (data : List Nat) (p : Nat) (hp : 0 < p) :
    (((List.range p).map (colData data p)).flatten).Perm data := by
  have H : ∀ n (data : List Nat), data.length = n →
      (((List.range p).map (colData data p)).flatten).Perm data := by
    intro n
    induction n using Nat.strong_induction_on with
    | _ n ih =>
      intro data hn
      by_cases hlen : data.length < p
      · rw [join_colData_base data p hp hlen]
      · have hplen : p ≤ data.length := Nat.not_lt.mp hlen
        have hmap : (List.range p).map (colData data p) =
            (List.range p).map fun j => data.getD j 0 :: colData (data.drop p) p j := by
          apply List.map_congr_left
          intro j hj
          exact colData_peel data p j hp (List.mem_range.mp hj) hplen
        rw [hmap]
        refine (join_cons_perm _ _ _).trans ?_
        have h1 : (List.range p).map (fun j => data.getD j 0) = data.take p := by
          apply List.ext_getElem?
          intro k
          by_cases hk : k < p
          · rw [List.getElem?_map, List.getElem?_range hk,
              List.getElem?_take_of_lt hk,
              List.getElem?_eq_getElem (by omega : k < data.length)]
            simp [List.getD_eq_getElem?_getD,
              List.getElem?_eq_getElem (by omega : k < data.length)]
          · rw [List.getElem?_eq_none (by simpa using Nat.not_lt.mp hk),
              List.getElem?_eq_none (by simp; omega)]
        have h2 : (((List.range p).map (colData (data.drop p) p)).flatten).Perm
            (data.drop p) := by
          apply ih (data.length - p) (by omega) (data.drop p)
          simp
        rw [h1]
        have h3 := List.Perm.append_left (data.take p) h2
        rw [List.take_append_drop] at h3
        exact h3
  exact H data.length data rfl

/-! ## Spike detection -/

theorem mem_spikeIndices (iocs : List ℚ) (i : Nat) :
    i ∈ spikeIndices iocs ↔ i < iocs.length ∧
      (mean iocs < iocs.getD i 0 ∧
        (3 / 2) ^ 2 * variance iocs < (iocs.getD i 0 - mean iocs) ^ 2) := by
  unfold spikeIndices spikeTest
  rw [List.mem_filter, List.mem_range]
  simp only [decide_eq_true_eq]

theorem variance_nonneg (iocs : List ℚ) : 0 ≤ variance iocs := by
  unfold variance
  apply div_nonneg
  · apply List.sum_nonneg
    intro x hx
    obtain ⟨y, _, rfl⟩ := List.mem_map.mp hx
    positivity
  · positivity

theorem eq_mean_of_variance_eq_zero (iocs : List ℚ) (hv : variance iocs = 0) :
    ∀ x ∈ iocs, x = mean iocs := by
  intro x hx
  have hlen : (0 : ℚ) < (iocs.length : ℚ) := by
    have : 0 < iocs.length := List.length_pos.mpr (List.ne_nil_of_mem hx)
    exact_mod_cast this
  unfold variance at hv
  rw [div_eq_zero_iff] at hv
  rcases hv with hv | hv
  · have hmem : (mean iocs - x) ^ 2 ∈ iocs.map fun y => (mean iocs - y) ^ 2 :=
      List.mem_map_of_mem _ hx
    have hle : (mean iocs - x) ^ 2 ≤ (iocs.map fun y => (mean iocs - y) ^ 2).sum := by
      apply List.single_le_sum _ _ hmem
      intro y hy
      obtain ⟨z, _, rfl⟩ := List.mem_map.mp hy
      positivity
    rw [hv] at hle
    have h0 : (mean iocs - x) ^ 2 = 0 :=
      le_antisymm hle (by positivity)
    have := pow_eq_zero_iff (n := 2) (by omega) |>.mp h0
    linarith [sub_eq_zero.mp this]
  · exact absurd hv (by positivity)

theorem sum_of_constant (l : List ℚ) (q : ℚ) (h : ∀ x ∈ l, x = q) :
    l.sum = (l.length : ℚ) * q := by
  induction l with
  | nil => simp
  | cons a t ih =>
      simp only [List.sum_cons, List.length_cons]
      rw [h a (List.mem_cons_self a t), ih fun x hx => h x (List.mem_cons_of_mem _ hx)]
      push_cast
      ring

theorem mean_of_constant (l : List ℚ) (q : ℚ) (hne : l ≠ []) (h : ∀ x ∈ l, x = q) :
    mean l = q := by
  have hlen : (0 : ℚ) < (l.length : ℚ) := by
    have : 0 < l.length := List.length_pos.mpr hne
    exact_mod_cast this
  unfold mean
  rw [sum_of_constant l q h]
  field_simp

theorem spikeIndices_nil_of_constant (scores : List ℚ) (q : ℚ)
    (h : ∀ x ∈ scores, x = q) : spikeIndices scores = [] := by
  rcases scores.eq_nil_or_concat with rfl | _
  · rfl
  · apply List.filter_eq_nil_iff.mpr
    intro i hi
    have hilen : i < scores.length := List.mem_range.mp hi
    have hne : scores ≠ [] := by
      intro hc
      rw [hc] at hilen
      exact absurd hilen (by simp)
    have hxmem : scores.getD i 0 ∈ scores := by
      rw [List.getD_eq_getElem scores 0 hilen]
      exact List.getElem_mem hilen
    have hx : scores.getD i 0 = q := h _ hxmem
    have hm : mean scores = q := mean_of_constant scores q hne h
    unfold spikeTest
    simp only [decide_eq_true_eq, not_and, hx, hm]
    intro hlt
    exact absurd hlt (lt_irrefl q)

/-- Over the reals, the squared-comparison spike test agrees with the
source's `(x - m)/stdev > 1.5` whenever the variance is positive. -/
theorem real_spike_iff (m v x : ℝ) (hv : 0 < v) :
    (m < x ∧ (3 / 2) ^ 2 * v < (x - m) ^ 2) ↔ 3 / 2 < (x - m) / Real.sqrt v := by
  have hs : 0 < Real.sqrt v := Real.sqrt_pos.mpr hv
  rw [lt_div_iff hs]
  constructor
  · rintro ⟨h1, h2⟩
    have ha : (0 : ℝ) ≤ 3 / 2 * Real.sqrt v := by positivity
    have hsq : (3 / 2 * Real.sqrt v) ^ 2 = (3 / 2) ^ 2 * v := by
      rw [mul_pow, Real.sq_sqrt hv.le]
    apply lt_of_pow_lt_pow_left 2 (by linarith)
    rw [hsq]
    exact h2
  · intro h
    have hxm : 0 < x - m := lt_trans (by positivity) h
    constructor
    · linarith
    · have := pow_lt_pow_left h (by positivity : (0 : ℝ) ≤ 3 / 2 * Real.sqrt v)
        (by omega : 2 ≠ 0)
      rw [mul_pow, Real.sq_sqrt hv.le] at this
      exact this

/-- Rational-input version of `real_spike_iff`, with the casts arranged as
they appear in the statement of the spike rule. -/
theorem rat_spike_iff (m v x : ℚ) (hv : 0 < v) :
    (m < x ∧ (3 / 2) ^ 2 * v < (x - m) ^ 2) ↔
      (3 / 2 : ℝ) < ((x : ℝ) - (m : ℝ)) / Real.sqrt ((v : ℝ)) := by
  have hvR : (0 : ℝ) < (v : ℝ) := by exact_mod_cast hv
  rw [← real_spike_iff ((m : ℝ)) ((v : ℝ)) ((x : ℝ)) hvR]
  constructor
  · rintro ⟨h1, h2⟩
    refine ⟨by exact_mod_cast h1, ?_⟩
    have h2' : ((((3 : ℚ) / 2) ^ 2 * v : ℚ) : ℝ) < (((x - m) ^ 2 : ℚ) : ℝ) := by
      exact_mod_cast h2
    push_cast at h2'
    exact h2'
  · rintro ⟨h1, h2⟩
    refine ⟨by exact_mod_cast h1, ?_⟩
    have h2' : ((((3 : ℚ) / 2) ^ 2 * v : ℚ) : ℝ) < (((x - m) ^ 2 : ℚ) : ℝ) := by
      push_cast
      exact h2
    exact_mod_cast h2'

/-! ## The two counting strategies evaluate the textbook IoC formula -/

theorem list_range_map_sum (f : Nat → ℕ) (n : Nat) :
    ((List.range n).map f).sum = ∑ c in Finset.range n, f c := by
  induction n with
  | zero => simp
  | succ m ih =>
      rw [List.range_succ, List.map_append, List.sum_append, Finset.sum_range_succ, ih]
      simp

/-- The numerator of `slow_ioc` is the coincidence count over the distinct
symbols of the column; `Finset.sum` over `data.toFinset` is definitionally
the sum over `data.dedup`. -/
theorem slow_ioc_eq (data : List Nat) :
    slow_ioc data =
      ((∑ c in data.toFinset, data.count c * (data.count c - 1) : ℕ) : ℚ)
        / ((data.length : ℚ) * ((data.length : ℚ) - 1)) := rfl

theorem fast_ioc_eq (data : List Nat) (hb : ∀ x ∈ data, x < 256) :
    fast_ioc data =
      ((∑ c in data.toFinset, data.count c * (data.count c - 1) : ℕ) : ℚ)
        / ((data.length : ℚ) * ((data.length : ℚ) - 1)) := by
  unfold fast_ioc
  have h1 : (((List.range 256).map fun x =>
      if data.count x ≠ 0 then data.count x * (data.count x - 1) else 0).sum) =
      ∑ c in data.toFinset, data.count c * (data.count c - 1) := by
    rw [list_range_map_sum]
    have h2 : ∀ c ∈ Finset.range 256,
        (if data.count c ≠ 0 then data.count c * (data.count c - 1) else 0) =
          data.count c * (data.count c - 1) := by
      intro c _
      by_cases h : data.count c = 0
      · simp [h]
      · simp [h]
    rw [Finset.sum_congr rfl h2]
    symm
    apply Finset.sum_subset
    · intro c hc
      rw [List.mem_toFinset] at hc
      exact Finset.mem_range.mpr (hb c hc)
    · intro c _ hc
      rw [List.mem_toFinset] at hc
      rw [List.count_eq_zero_of_not_mem hc]
      simp
  rw [h1]

theorem fast_ioc_eq_slow_ioc (data : List Nat) (hb : ∀ x ∈ data, x < 256) :
    fast_ioc data = slow_ioc data := by
  rw [fast_ioc_eq data hb, slow_ioc_eq]

theorem count_sum_cast (data : List Nat) :
    ((∑ c in data.toFinset, data.count c * (data.count c - 1) : ℕ) : ℚ) =
      ∑ c in data.toFinset, (data.count c : ℚ) * ((data.count c : ℚ) - 1) := by
  rw [Nat.cast_sum]
  apply Finset.sum_congr rfl
  intro c hc
  have h1 : 1 ≤ data.count c := List.count_pos_iff.mpr (List.mem_toFinset.mp hc)
  rw [Nat.cast_mul, Nat.cast_sub h1, Nat.cast_one]

/-! ## Strategy choice does not influence any computed score -/

theorem colData_mem (data : List Nat) (p j : Nat) (hp : 0 < p) (hj : j < p) :
    ∀ x ∈ colData data p j, x ∈ data := by
  intro x hx
  obtain ⟨k, hk, rfl⟩ := List.mem_map.mp hx
  have hklt : k < colLen data.length p j := List.mem_range.mp hk
  have hidx := col_index_lt hp hj hklt
  rw [List.getD_eq_getElem data 0 hidx]
  exact List.getElem_mem hidx

theorem periodScore_flag (data : List Nat) (hb : ∀ x ∈ data, x < 256) (p : Nat) :
    periodScore true data p = periodScore false data p := by
  rcases Nat.eq_zero_or_pos p with rfl | hp
  · simp [periodScore]
  · unfold periodScore
    have h : ((List.range p).map fun j => iocOf true (colData data p j)) =
        (List.range p).map fun j => iocOf false (colData data p j) := by
      apply List.map_congr_left
      intro j hj
      show fast_ioc _ = slow_ioc _
      exact fast_ioc_eq_slow_ioc _ fun x hx =>
        hb x (colData_mem data p j hp (List.mem_range.mp hj) x hx)
    rw [h]

theorem extendCache_flag (data : List Nat) (hb : ∀ x ∈ data, x < 256)
    (range : Nat) (cache : List ℚ) :
    extendCache true data range cache = extendCache false data range cache := by
  rw [extendCache_eq, extendCache_eq]
  have h : (List.range' (cache.length + 1) (range - (cache.length + 1))).map
      (periodScore true data) =
      (List.range' (cache.length + 1) (range - (cache.length + 1))).map
        (periodScore false data) := by
    apply List.map_congr_left
    intro i _
    exact periodScore_flag data hb i
  rw [h]

theorem analyze_flag (data : List Nat) (hb : ∀ x ∈ data, x < 256)
    (range : Nat) (cache : List ℚ) :
    analyze true data range cache = analyze false data range cache := by
  unfold analyze scanM
  rw [extendCache_flag data hb range cache]

/-! ## Unfolding lemmas for `analyze` -/

theorem wsub1_eq {n : Nat} (h : 1 ≤ n) : wsub1 n = n - 1 := by
  unfold wsub1
  rw [if_neg (by omega)]

theorem analyze_fast_path (ib : Bool) (data : List Nat) (range : Nat) (cache : List ℚ)
    (h : range ≤ cache.length) :
    analyze ib data range cache = plotRes (cache.take (wsub1 range)) cache := by
  unfold analyze scanM
  rw [if_pos h]
  exact if_pos h

theorem analyze_err_short (ib : Bool) (data : List Nat) (range : Nat) (cache : List ℚ)
    (h1 : ¬range ≤ cache.length) (h2 : data.length < 4) :
    analyze ib data range cache = .err "Length of input is too short (4 chars minimum)" := by
  unfold analyze scanM
  rw [if_neg h1, if_pos h2]

theorem analyze_err_range (ib : Bool) (data : List Nat) (range : Nat) (cache : List ℚ)
    (h1 : ¬range ≤ cache.length) (h2 : ¬data.length < 4) (h3 : data.length / 2 < range) :
    analyze ib data range cache = .err "Range is too large. Please decrease." := by
  unfold analyze scanM
  rw [if_neg h1, if_pos h3]
  rw [if_neg h2]

theorem analyze_slow_path (ib : Bool) (data : List Nat) (range : Nat) (cache : List ℚ)
    (h1 : ¬range ≤ cache.length) (h2 : ¬data.length < 4) (h3 : ¬data.length / 2 < range) :
    analyze ib data range cache =
      plotRes (extendCache ib data range cache) (extendCache ib data range cache) := by
  unfold analyze scanM
  rw [if_neg h1, if_neg h2, if_neg h3]
  exact if_neg h1

theorem plotRes_ok (iocs ret : List ℚ) (h : iocs ≠ []) :
    plotRes iocs ret = .ok ret iocs (spikeIndices iocs) := by
  unfold plotRes
  rw [if_neg (by simpa using h)]

theorem plotRes_panic (ret : List ℚ) : plotRes [] ret = .panic := rfl

/-! ## The claims -/

/-- C1 (incrementality of the scan): for every symbol stream of length ≥ 4 and
valid bounds `1 ≤ p1 < p2 ≤ len/2`, running the Period Scanner to `p1` from an
empty cache and then extending to `p2` yields exactly the score sequence of a
direct scan to `p2`, and the entries already present are returned unchanged
(the extended cache begins with the old cache as a prefix). -/
theorem scan_incrementality (ib : Bool) (data : List Nat) (p1 p2 : Nat)
    (hlen : 4 ≤ data.length) (hp1 : 1 ≤ p1) (h12 : p1 < p2)
    (hp2 : p2 ≤ data.length / 2) :
    ∃ c1 c2, scanM ib data p1 [] = .ok c1 ∧
      scanM ib data p2 c1 = .ok c2 ∧
      scanM ib data p2 [] = .ok c2 ∧
      c2.take c1.length = c1 := by
  have hne0 : ∀ r : Nat, 1 ≤ r → ¬r ≤ ([] : List ℚ).length := by
    intro r hr
    simp only [List.length_nil]
    omega
  have hc1 : scanM ib data p1 [] = .ok (extendCache ib data p1 []) := by
    unfold scanM
    rw [if_neg (hne0 p1 hp1), if_neg (by omega), if_neg (by omega)]
  have hc1eq : extendCache ib data p1 [] =
      (List.range' 1 (p1 - 1)).map (periodScore ib data) := by
    rw [extendCache_eq]
    simp
  have hc1len : (extendCache ib data p1 []).length = p1 - 1 := by
    rw [hc1eq]
    simp
  have hc2 : scanM ib data p2 (extendCache ib data p1 []) =
      .ok (extendCache ib data p2 (extendCache ib data p1 [])) := by
    unfold scanM
    rw [if_neg (by rw [hc1len]; omega), if_neg (by omega), if_neg (by omega)]
  have hdirect : scanM ib data p2 [] = .ok (extendCache ib data p2 []) := by
    unfold scanM
    rw [if_neg (hne0 p2 (by omega)), if_neg (by omega), if_neg (by omega)]
  have hglue : extendCache ib data p2 (extendCache ib data p1 []) =
      extendCache ib data p2 [] := by
    rw [hc1eq, extendCache_eq, extendCache_eq]
    simp only [List.length_map, List.length_range', List.length_nil, List.nil_append,
      Nat.zero_add]
    rw [show p1 - 1 + 1 = p1 by omega]
    rw [← List.map_append]
    have happ := List.range'_append_1 1 (p1 - 1) (p2 - p1)
    rw [show 1 + (p1 - 1) = p1 by omega,
      show p2 - p1 + (p1 - 1) = p2 - 1 by omega] at happ
    rw [happ]
  refine ⟨extendCache ib data p1 [], extendCache ib data p2 [], hc1, ?_, hdirect, ?_⟩
  · rw [hc2, hglue]
  · rw [hc1len, hc1eq, extendCache_eq ib data p2 []]
    simp only [List.length_nil, List.nil_append, Nat.zero_add]
    have hsplit : (List.range' 1 (p2 - 1)).map (periodScore ib data) =
        (List.range' 1 (p1 - 1)).map (periodScore ib data) ++
          (List.range' p1 (p2 - p1)).map (periodScore ib data) := by
      rw [← List.map_append]
      have happ := List.range'_append_1 1 (p1 - 1) (p2 - p1)
      rw [show 1 + (p1 - 1) = p1 by omega,
        show p2 - p1 + (p1 - 1) = p2 - 1 by omega] at happ
      rw [happ]
    rw [hsplit]
    apply List.take_left'
    simp

/-- C2 counterexample: with stream `[0,0,0,0]`, `max_period = 2` and a cache
holding 3 ≥ `max_period - 1` entries, the call returns the *full* cache
`[1,2,3]`, not its first `max_period - 1 = 1` entries. -/
theorem cached_path_counterexample :
    retOf (analyze true [0, 0, 0, 0] 2 [1, 2, 3]) = some [1, 2, 3] ∧
      ([1, 2, 3] : List ℚ) ≠ [(1 : ℚ)] := by
  constructor
  · rw [analyze_fast_path true [0, 0, 0, 0] 2 [1, 2, 3] (by decide),
      wsub1_eq (by decide),
      show ([1, 2, 3] : List ℚ).take (2 - 1) = [1] from rfl,
      plotRes_ok [1] [1, 2, 3] (by decide)]
    rfl
  · decide

/-- C2 (amended): for `max_period ≥ 2`, (a) when the cache has at least
`max_period` entries the call takes the fast path: no validation, no
recomputation, the *full* cache is returned and only its first
`max_period - 1` entries are plotted; (b) when the cache has exactly
`max_period - 1` entries the input is still validated, and on valid input the
cache is returned unchanged with no recomputation. -/
theorem cached_path_amended (ib : Bool) (data : List Nat) (range : Nat)
    (cache : List ℚ) (h2 : 2 ≤ range) :
    (range ≤ cache.length →
      analyze ib data range cache =
        .ok cache (cache.take (range - 1)) (spikeIndices (cache.take (range - 1)))) ∧
    (cache.length = range - 1 → 4 ≤ data.length → range ≤ data.length / 2 →
      analyze ib data range cache = .ok cache cache (spikeIndices cache)) := by
  constructor
  · intro h
    rw [analyze_fast_path ib data range cache h, wsub1_eq (by omega)]
    apply plotRes_ok
    have hlt : (cache.take (range - 1)).length = range - 1 := by
      rw [List.length_take]
      omega
    intro hc
    rw [hc] at hlt
    simp at hlt
    omega
  · intro hlen h4 hr
    have hext : extendCache ib data range cache = cache := by
      unfold extendCache
      rw [show range - (cache.length + 1) = 0 by omega]
      rfl
    rw [analyze_slow_path ib data range cache (by omega) (by omega) (by omega), hext]
    apply plotRes_ok
    intro hc
    rw [hc] at hlen
    simp at hlen
    omega

/-- C3 counterexample: a stream of length 3 (< 4) is *not* rejected when the
supplied cache already covers the requested `max_period`: the cached fast path
runs before any validation and the call succeeds. -/
theorem validation_counterexample :
    analyze true [0, 0, 0] 2 [1, 2] = .ok [1, 2] [1] [] ∧
      analyze true [0, 0, 0] 2 [1, 2] ≠
        .err "Length of input is too short (4 chars minimum)" := by
  have h : analyze true [0, 0, 0] 2 [1, 2] = .ok [1, 2] [1] [] := by
    rw [analyze_fast_path true [0, 0, 0] 2 [1, 2] (by decide), wsub1_eq (by decide),
      show ([1, 2] : List ℚ).take (2 - 1) = [1] from rfl,
      plotRes_ok [1] [1, 2] (by decide),
      spikeIndices_nil_of_constant [1] 1 (by intro x hx; simpa using hx)]
  refine ⟨h, ?_⟩
  intro hc
  rw [h] at hc
  cases hc

/-- C3 (amended): on every call whose cache does *not* already cover the
request (`cache.length < max_period`), a stream shorter than 4 symbols is
rejected with the "too short" error, and otherwise a `max_period` exceeding
`len/2` is rejected with the "range too large" error, both before the cache
is extended; in particular a length-3 stream is always rejected there, and a
length-100 stream rejects `max_period = 51` but accepts `max_period = 50`. -/
theorem validation_amended (ib : Bool) (data : List Nat) (range : Nat)
    (cache : List ℚ) (hc : cache.length < range) :
    ((data.length < 4 →
      analyze ib data range cache =
        .err "Length of input is too short (4 chars minimum)") ∧
    (4 ≤ data.length → data.length / 2 < range →
      analyze ib data range cache = .err "Range is too large. Please decrease.")) ∧
    ((data.length = 3 →
      analyze ib data range cache =
        .err "Length of input is too short (4 chars minimum)") ∧
    (data.length = 100 →
      analyze ib data 51 [] = .err "Range is too large. Please decrease.") ∧
    (data.length = 100 →
      analyze ib data 50 [] =
        .ok (extendCache ib data 50 []) (extendCache ib data 50 [])
          (spikeIndices (extendCache ib data 50 [])))) := by
  refine ⟨⟨?_, ?_⟩, ?_, ?_, ?_⟩
  · intro h4
    exact analyze_err_short ib data range cache (by omega) h4
  · intro h4 hr
    exact analyze_err_range ib data range cache (by omega) (by omega) hr
  · intro h3
    exact analyze_err_short ib data range cache (by omega) (by omega)
  · intro h100
    exact analyze_err_range ib data 51 [] (by simp) (by omega) (by omega)
  · intro h100
    rw [analyze_slow_path ib data 50 [] (by simp) (by omega) (by omega)]
    apply plotRes_ok
    intro hc2
    have := extendCache_length ib data 50 []
    rw [hc2] at this
    simp at this

/-- C4 (transposer placement): for every stream, every period `p ≥ 1` and
every buffer at least `chunk_size * p` long (as the one `analyze` allocates),
after `transpose4` the buffer holds `stream[i]` at offset
`(i mod p) * chunk_size + (i div p)` for every stream index `i`. -/
theorem transposer_placement (data buf : List Nat) (p : Nat) (hp : 1 ≤ p)
    (hbuf : chunkSize data.length p * p ≤ buf.length) (i : Nat)
    (hi : i < data.length) :
    (transpose4 data buf p)[i % p * chunkSize data.length p + i / p]? =
      some (data.get ⟨i, hi⟩) := by
  have hd : i / p < chunkSize data.length p := div_lt_chunkSize hp hi
  have hm : i % p < p := Nat.mod_lt i hp
  have hidx : i % p * chunkSize data.length p + i / p < buf.length := by
    have h1 : (i % p + 1) * chunkSize data.length p ≤ p * chunkSize data.length p :=
      Nat.mul_le_mul_right _ (by omega)
    have h2 : (i % p + 1) * chunkSize data.length p =
        i % p * chunkSize data.length p + chunkSize data.length p := by ring
    have h3 : p * chunkSize data.length p = chunkSize data.length p * p := by ring
    omega
  rw [transpose4_getElem data buf p hp i hi hidx,
    List.getD_eq_getElem data 0 hi, List.get_eq_getElem]

/-- C5 (coincidence score formula): for any column of length ≥ 2 (with byte
codes for the dense strategy), both counting strategies return
`Σ_c count_c (count_c - 1) / (n (n-1))` with genuine subtraction over ℚ;
every count reaching the subtraction is ≥ 1, and a symbol that does not occur
contributes exactly 0 to the dense strategy's filtered sum. -/
theorem coincidence_formula (col : List Nat) (h2 : 2 ≤ col.length)
    (hb : ∀ x ∈ col, x < 256) :
    (fast_ioc col =
      (∑ c in col.toFinset, (col.count c : ℚ) * ((col.count c : ℚ) - 1))
        / ((col.length : ℚ) * ((col.length : ℚ) - 1)) ∧
    slow_ioc col =
      (∑ c in col.toFinset, (col.count c : ℚ) * ((col.count c : ℚ) - 1))
        / ((col.length : ℚ) * ((col.length : ℚ) - 1))) ∧
    ((∀ c ∈ col.toFinset, 1 ≤ col.count c) ∧
    (∀ c : Nat, c ∉ col →
      (if col.count c ≠ 0 then col.count c * (col.count c - 1) else 0) = 0)) := by
  refine ⟨⟨?_, ?_⟩, ?_, ?_⟩
  · rw [fast_ioc_eq col hb, count_sum_cast]
  · rw [slow_ioc_eq, count_sum_cast]
  · intro c hcm
    exact List.count_pos_iff.mpr (List.mem_toFinset.mp hcm)
  · intro c hcm
    rw [List.count_eq_zero_of_not_mem hcm]
    simp

/-- C6 (strategy equivalence): on any stream whose symbol codes lie in
`[0, 256)` the dense and sparse counters agree, and running the whole
analysis with the dense strategy gives exactly the same observable outcome as
with the sparse one. -/
theorem strategy_equivalence (data : List Nat) (hb : ∀ x ∈ data, x < 256)
    (range : Nat) (cache : List ℚ) :
    fast_ioc data = slow_ioc data ∧
      analyze true data range cache = analyze false data range cache :=
  ⟨fast_ioc_eq_slow_ioc data hb, analyze_flag data hb range cache⟩

/-- C7 (column coverage and padding exclusion): for every stream and scanned
period `p ≥ 1`, the trimmed columns are a permutation of the stream (no
symbol double-counted or dropped), their lengths sum to `len(stream)`
exactly, and the slices read back from the transposition buffer equal those
stream-only columns whatever the buffer previously contained -- no padding
or stale cell is ever read as data. -/
theorem column_coverage (data : List Nat) (p : Nat) (hp : 1 ≤ p) :
    ((((List.range p).map (colData data p)).flatten).Perm data ∧
      ((List.range p).map fun j => (colData data p j).length).sum = data.length) ∧
      (∀ buf : List Nat, chunkSize data.length p * p ≤ buf.length → ∀ j < p,
        colSlice (transpose4 data buf p) data.length p j = colData data p j) := by
  refine ⟨⟨join_colData_perm data p hp, ?_⟩, ?_⟩
  · have h : ((List.range p).map fun j => (colData data p j).length) =
        (List.range p).map fun j => colLen data.length p j := by
      apply List.map_congr_left
      intro j _
      unfold colData
      simp
    rw [h, sum_colLen data.length p hp]
  · intro buf hbuf j hj
    exact colSlice_transpose4 data buf p j hp hj hbuf

/-- C8 counterexample: on the cached fast path the caller gets back a cache
of 3 entries although `max_period - 1 = 1`: the returned cache length is not
bounded by `max_period - 1`. -/
theorem cache_length_counterexample :
    retOf (analyze true [7, 7, 7, 7] 2 [5, 6, 9]) = some [5, 6, 9] ∧
      ¬(([5, 6, 9] : List ℚ).length ≤ 2 - 1) := by
  constructor
  · rw [analyze_fast_path true [7, 7, 7, 7] 2 [5, 6, 9] (by decide),
      wsub1_eq (by decide),
      show ([5, 6, 9] : List ℚ).take (2 - 1) = [5] from rfl,
      plotRes_ok [5] [5, 6, 9] (by decide)]
    rfl
  · decide

/-- C8 (amended): after every successful call the returned cache has length
`max(old length, max_period - 1)` -- so it is bounded by `max_period - 1`
exactly when the supplied cache did not already exceed it -- and the cache
length never decreases. -/
theorem cache_length_amended (ib : Bool) (data : List Nat) (range : Nat)
    (cache : List ℚ) (c p : List ℚ) (s : List Nat)
    (h : analyze ib data range cache = .ok c p s) :
    c.length = max cache.length (range - 1) ∧ cache.length ≤ c.length ∧
      (cache.length < range → c.length ≤ range - 1) := by
  by_cases h1 : range ≤ cache.length
  · rw [analyze_fast_path ib data range cache h1] at h
    unfold plotRes at h
    by_cases he : (cache.take (wsub1 range)).isEmpty = true
    · rw [if_pos he] at h
      cases h
    · rw [if_neg he] at h
      cases h
      refine ⟨by omega, le_refl _, ?_⟩
      intro hcon
      omega
  · by_cases h2 : data.length < 4
    · rw [analyze_err_short ib data range cache h1 h2] at h
      cases h
    · by_cases h3 : data.length / 2 < range
      · rw [analyze_err_range ib data range cache h1 h2 h3] at h
        cases h
      · rw [analyze_slow_path ib data range cache h1 h2 h3] at h
        unfold plotRes at h
        by_cases he : (extendCache ib data range cache).isEmpty = true
        · rw [if_pos he] at h
          cases h
        · rw [if_neg he] at h
          cases h
          have hl := extendCache_length ib data range cache
          refine ⟨by omega, by omega, fun _ => by omega⟩

/-- C9 (spike rule and spike symmetry): an index is in the spike set iff the
source's criterion `(scores[i] - mean)/stdev > 1.5` holds over the reals with
`stdev` the population standard deviation (the square root of `variance`);
and on a constant score curve no index is ever classified as a spike. -/
theorem spike_rule (scores : List ℚ) :
    (∀ i : Nat, i ∈ spikeIndices scores ↔
      ∃ h : i < scores.length,
        (3 / 2 : ℝ) < (((scores.get ⟨i, h⟩ : ℚ) : ℝ) - ((mean scores : ℚ) : ℝ))
          / Real.sqrt ((variance scores : ℚ) : ℝ)) ∧
    (∀ q : ℚ, (∀ x ∈ scores, x = q) → spikeIndices scores = []) := by
  constructor
  · intro i
    rw [mem_spikeIndices]
    by_cases hv : variance scores = 0
    · constructor
      · rintro ⟨hlen, hlt, -⟩
        exfalso
        have hxmem : scores.getD i 0 ∈ scores := by
          rw [List.getD_eq_getElem scores 0 hlen]
          exact List.getElem_mem hlen
        have hx := eq_mean_of_variance_eq_zero scores hv _ hxmem
        rw [hx] at hlt
        exact lt_irrefl _ hlt
      · rintro ⟨hlen, hreal⟩
        exfalso
        rw [hv] at hreal
        simp only [Rat.cast_zero, Real.sqrt_zero, div_zero] at hreal
        linarith
    · have hvpos : 0 < variance scores :=
        lt_of_le_of_ne (variance_nonneg scores) (Ne.symm hv)
      constructor
      · rintro ⟨hlen, hcond⟩
        refine ⟨hlen, ?_⟩
        have hget : scores.get ⟨i, hlen⟩ = scores.getD i 0 := by
          rw [List.getD_eq_getElem scores 0 hlen, List.get_eq_getElem]
        rw [hget]
        exact (rat_spike_iff _ _ _ hvpos).mp hcond
      · rintro ⟨hlen, hreal⟩
        refine ⟨hlen, ?_⟩
        have hget : scores.get ⟨i, hlen⟩ = scores.getD i 0 := by
          rw [List.getD_eq_getElem scores 0 hlen, List.get_eq_getElem]
        rw [hget] at hreal
        exact (rat_spike_iff _ _ _ hvpos).mpr hreal
  · intro q hq
    exact spikeIndices_nil_of_constant scores q hq

/-- C10 (implicit panic at `max_period ≤ 1`): with an empty initial cache and
`max_period ≤ 1`, even on a well-formed stream of length ≥ 4 the computed
score curve is empty and `analyze` panics (the fast path underflows `range-1`
and plots an empty curve at `range = 0`; at `range = 1` the scan loop is
empty and `plot` unwraps the minimum of an empty curve). -/
theorem empty_range_panic (ib : Bool) (data : List Nat) (range : Nat)
    (hr : range ≤ 1) (hlen : 4 ≤ data.length) :
    extendCache ib data range [] = [] ∧ analyze ib data range [] = .panic := by
  have hext : extendCache ib data range [] = [] := by
    unfold extendCache
    rw [show range - (List.length ([] : List ℚ) + 1) = 0 by simp; omega]
    rfl
  refine ⟨hext, ?_⟩
  rcases Nat.eq_zero_or_pos range with rfl | hr1
  · rw [analyze_fast_path ib data 0 [] (by simp)]
    simp [plotRes]
  · have hr1' : range = 1 := by omega
    subst hr1'
    rw [analyze_slow_path ib data 1 [] (by simp) (by omega) (by omega), hext]
    rfl

/-! ## Witnesses: the claim theorems applied at concrete inputs -/

/-- C1 witness at stream `[0,1,2,3]`, `p1 = 1`, `p2 = 2`. -/
theorem scan_incrementality_witness :
    4 ≤ ([0, 1, 2, 3] : List Nat).length ∧ 1 ≤ 1 ∧ 1 < 2 ∧
      2 ≤ ([0, 1, 2, 3] : List Nat).length / 2 ∧
      (∃ c1 c2, scanM true [0, 1, 2, 3] 1 [] = .ok c1 ∧
        scanM true [0, 1, 2, 3] 2 c1 = .ok c2 ∧
        scanM true [0, 1, 2, 3] 2 [] = .ok c2 ∧
        c2.take c1.length = c1) :=
  ⟨by decide, by decide, by decide, by decide,
    scan_incrementality true [0, 1, 2, 3] 1 2 (by decide) (by decide) (by decide)
      (by decide)⟩

/-- C2 witness at `max_period = 2`, cache `[1,1]`, stream `[0,0,0,0]`. -/
theorem cached_path_witness :
    2 ≤ 2 ∧
      ((2 ≤ ([1, 1] : List ℚ).length →
        analyze true [0, 0, 0, 0] 2 [1, 1] =
          .ok [1, 1] (([1, 1] : List ℚ).take (2 - 1))
            (spikeIndices (([1, 1] : List ℚ).take (2 - 1)))) ∧
      (([1, 1] : List ℚ).length = 2 - 1 → 4 ≤ ([0, 0, 0, 0] : List Nat).length →
        2 ≤ ([0, 0, 0, 0] : List Nat).length / 2 →
        analyze true [0, 0, 0, 0] 2 [1, 1] = .ok [1, 1] [1, 1] (spikeIndices [1, 1]))) :=
  ⟨by decide, cached_path_amended true [0, 0, 0, 0] 2 [1, 1] (by decide)⟩

/-- C3 witness at stream `[0,0,0]`, `max_period = 3`, empty cache. -/
theorem validation_witness :
    ([] : List ℚ).length < 3 ∧
      ((([0, 0, 0] : List Nat).length < 4 →
        analyze true [0, 0, 0] 3 [] =
          .err "Length of input is too short (4 chars minimum)") ∧
      (4 ≤ ([0, 0, 0] : List Nat).length → ([0, 0, 0] : List Nat).length / 2 < 3 →
        analyze true [0, 0, 0] 3 [] = .err "Range is too large. Please decrease.")) ∧
      ((([0, 0, 0] : List Nat).length = 3 →
        analyze true [0, 0, 0] 3 [] =
          .err "Length of input is too short (4 chars minimum)") ∧
      (([0, 0, 0] : List Nat).length = 100 →
        analyze true [0, 0, 0] 51 [] = .err "Range is too large. Please decrease.") ∧
      (([0, 0, 0] : List Nat).length = 100 →
        analyze true [0, 0, 0] 50 [] =
          .ok (extendCache true [0, 0, 0] 50 []) (extendCache true [0, 0, 0] 50 [])
            (spikeIndices (extendCache true [0, 0, 0] 50 [])))) :=
  ⟨by decide, validation_amended true [0, 0, 0] 3 [] (by decide)⟩

/-- C4 witness: stream `[5,6,7,8,9]`, period 2, the buffer `analyze` would
allocate; stream index 3 lands at buffer offset `(3 mod 2)*3 + 1 = 4`. -/
theorem transposer_placement_witness :
    1 ≤ 2 ∧
      chunkSize ([5, 6, 7, 8, 9] : List Nat).length 2 * 2 ≤ (List.replicate 6 0).length ∧
      3 < ([5, 6, 7, 8, 9] : List Nat).length ∧
      (transpose4 [5, 6, 7, 8, 9] (List.replicate 6 0) 2)[3 % 2 *
          chunkSize ([5, 6, 7, 8, 9] : List Nat).length 2 + 3 / 2]? =
        some ([5, 6, 7, 8, 9].get ⟨3, by decide⟩) :=
  ⟨by decide, by decide, by decide,
    transposer_placement [5, 6, 7, 8, 9] (List.replicate 6 0) 2 (by decide) (by decide)
      3 (by decide)⟩

/-- C5 witness at the column `[0,0,1,2]`. -/
theorem coincidence_formula_witness :
    2 ≤ ([0, 0, 1, 2] : List Nat).length ∧ (∀ x ∈ ([0, 0, 1, 2] : List Nat), x < 256) ∧
      ((fast_ioc [0, 0, 1, 2] =
        (∑ c in ([0, 0, 1, 2] : List Nat).toFinset,
            (([0, 0, 1, 2] : List Nat).count c : ℚ) *
              ((([0, 0, 1, 2] : List Nat).count c : ℚ) - 1))
          / ((([0, 0, 1, 2] : List Nat).length : ℚ) *
              ((([0, 0, 1, 2] : List Nat).length : ℚ) - 1)) ∧
      slow_ioc [0, 0, 1, 2] =
        (∑ c in ([0, 0, 1, 2] : List Nat).toFinset,
            (([0, 0, 1, 2] : List Nat).count c : ℚ) *
              ((([0, 0, 1, 2] : List Nat).count c : ℚ) - 1))
          / ((([0, 0, 1, 2] : List Nat).length : ℚ) *
              ((([0, 0, 1, 2] : List Nat).length : ℚ) - 1))) ∧
      ((∀ c ∈ ([0, 0, 1, 2] : List Nat).toFinset, 1 ≤ ([0, 0, 1, 2] : List Nat).count c) ∧
      (∀ c : Nat, c ∉ ([0, 0, 1, 2] : List Nat) →
        (if ([0, 0, 1, 2] : List Nat).count c ≠ 0 then
          ([0, 0, 1, 2] : List Nat).count c * (([0, 0, 1, 2] : List Nat).count c - 1)
        else 0) = 0))) :=
  ⟨by decide, by decide, coincidence_formula [0, 0, 1, 2] (by decide) (by decide)⟩

/-- C6 witness at the stream `[0,1,1,2]`, `max_period = 2`, empty cache. -/
theorem strategy_equivalence_witness :
    (∀ x ∈ ([0, 1, 1, 2] : List Nat), x < 256) ∧
      (fast_ioc [0, 1, 1, 2] = slow_ioc [0, 1, 1, 2] ∧
        analyze true [0, 1, 1, 2] 2 [] = analyze false [0, 1, 1, 2] 2 []) :=
  ⟨by decide, strategy_equivalence [0, 1, 1, 2] (by decide) 2 []⟩

/-- C7 witness at the stream `[0,1,2,3,4,5,6]` and period 3 (one full column
of 3 and two trimmed columns of 2). -/
theorem column_coverage_witness :
    1 ≤ 3 ∧
      (((((List.range 3).map (colData [0, 1, 2, 3, 4, 5, 6] 3)).flatten).Perm
          [0, 1, 2, 3, 4, 5, 6] ∧
        ((List.range 3).map fun j => (colData [0, 1, 2, 3, 4, 5, 6] 3 j).length).sum =
          ([0, 1, 2, 3, 4, 5, 6] : List Nat).length) ∧
      (∀ buf : List Nat,
        chunkSize ([0, 1, 2, 3, 4, 5, 6] : List Nat).length 3 * 3 ≤ buf.length →
        ∀ j < 3, colSlice (transpose4 [0, 1, 2, 3, 4, 5, 6] buf 3)
          ([0, 1, 2, 3, 4, 5, 6] : List Nat).length 3 j =
            colData [0, 1, 2, 3, 4, 5, 6] 3 j)) :=
  ⟨by decide, column_coverage [0, 1, 2, 3, 4, 5, 6] 3 (by decide)⟩

/-- C8 witness: a successful fast-path call with a 3-entry cache and
`max_period = 3` keeps the cache length at `max 3 (3-1) = 3`. -/
theorem cache_length_witness :
    ([4, 4, 4] : List ℚ).length = max ([4, 4, 4] : List ℚ).length (3 - 1) ∧
      ([4, 4, 4] : List ℚ).length ≤ ([4, 4, 4] : List ℚ).length ∧
      (([4, 4, 4] : List ℚ).length < 3 → ([4, 4, 4] : List ℚ).length ≤ 3 - 1) := by
  have h : analyze true [9, 9, 9, 9] 3 [4, 4, 4] = .ok [4, 4, 4] [4, 4] [] := by
    rw [analyze_fast_path true [9, 9, 9, 9] 3 [4, 4, 4] (by decide), wsub1_eq (by decide),
      show ([4, 4, 4] : List ℚ).take (3 - 1) = [4, 4] from rfl,
      plotRes_ok [4, 4] [4, 4, 4] (by decide),
      spikeIndices_nil_of_constant [4, 4] 4 (by intro x hx; simpa using hx)]
  exact cache_length_amended true [9, 9, 9, 9] 3 [4, 4, 4] [4, 4, 4] [4, 4] [] h

/-- C9 witness: the all-equal curve `[1,1,1]` yields no spikes. -/
theorem spike_rule_witness :
    (∀ x ∈ [(1 : ℚ), 1, 1], x = 1) ∧ spikeIndices [(1 : ℚ), 1, 1] = [] :=
  ⟨by intro x hx; simpa using hx,
    (spike_rule [(1 : ℚ), 1, 1]).2 1 (by intro x hx; simpa using hx)⟩

/-- C10 witness: an empty cache with `max_period = 1` on a length-4 stream
produces an empty score curve and a panic. -/
theorem empty_range_panic_witness :
    1 ≤ 1 ∧ 4 ≤ ([0, 0, 0, 0] : List Nat).length ∧
      (extendCache true [0, 0, 0, 0] 1 [] = [] ∧
        analyze true [0, 0, 0, 0] 1 [] = .panic) :=
  ⟨by decide, by decide, empty_range_panic true [0, 0, 0, 0] 1 (by decide) (by decide)⟩

end Kullback
